import Mathlib

/-!
Verification development for the sol-bot holder-monitoring service.

Shallow embedding conventions:
* Machine integers (`u64`, `usize`, `i64`) are modelled as `Nat`/`Int` with
  explicit `% 2 ^ 64` where overflow matters (Rust release-mode wrapping
  semantics; `as` casts always truncate/wrap in Rust).
* `f64` arithmetic is modelled exactly over `ℚ` — the statements capture the
  formulas the source computes, not IEEE-754 rounding.
* Byte buffers (`Vec<u8>`) are `List Nat`, public keys (`Pubkey`, 32 bytes)
  are the 32-byte slice `List Nat` they are read from.
* `HashSet<Pubkey>` is a `Finset (List Nat)`.
* Fallible code (`anyhow::Result`) returns `Except`.
* Asynchronous effects (network calls, clock reads) are passed in as explicit
  parameters / oracles; log statements and local logging counters are dropped.
-/

namespace SolBot

/-! ## Remote fetch client (src/rpc_client.rs) -/

/-- `SolanaRpcClient::exponential_backoff` (rpc_client.rs:252-256), in
milliseconds.  `base_delay_ms * 2u64.pow(attempt)` is `u64` arithmetic and is
modelled with wrapping (`% 2 ^ 64`); the result is capped by
`.min(10000)`. -/
def exponential_backoff (attempt : Nat) : Nat :=
  let base_delay_ms : Nat := 1000
  let delay_ms : Nat := (base_delay_ms * (2 ^ attempt % 2 ^ 64)) % 2 ^ 64
  min delay_ms 10000

/-! ## Account extractor (src/token_monitor.rs) -/

/-- `u64::from_le_bytes`: little-endian value of a byte list
(first byte is least significant). -/
def leU64 (bytes : List Nat) : Nat :=
  bytes.foldr (fun b acc => b + 256 * acc) 0

/-- The token-account balance: `u64` little-endian at byte offset 64
(token_monitor.rs:78-81). -/
def amountOf (d : List Nat) : Nat :=
  leU64 ((d.drop 64).take 8)

/-- The owner field: bytes 32..64 of the account payload
(token_monitor.rs:86-88). -/
def ownerOf (d : List Nat) : List Nat :=
  (d.drop 32).take 32

/-- `Pubkey::default()`: the all-zero 32-byte identifier. -/
def default_pubkey : List Nat :=
  List.replicate 32 0

/-- The loop body of `extract_holders` (token_monitor.rs:64-106), folding the
account payloads into the holder set.  The account pubkey and the
`zero_balance_count` logging counter only feed log statements and are
dropped.  `Pubkey::try_from` on the 32-byte slice always succeeds, so the
owner is the 32-byte slice itself. -/
def extractGo : List (List Nat) → Finset (List Nat) → Finset (List Nat)
  | [], holders => holders
  | d :: rest, holders =>
    if d.length < 72 then
      extractGo rest holders
    else if 0 < amountOf d then
      if 64 ≤ d.length then
        if ownerOf d ≠ default_pubkey then
          extractGo rest (insert (ownerOf d) holders)
        else
          extractGo rest holders
      else
        extractGo rest holders
    else
      extractGo rest holders

/-- `extract_holders` (token_monitor.rs:60-115): every control path of the
source returns `Ok`, so the body is `Except.ok` of the folded set. -/
def extract_holders (accounts : List (List Nat)) : Except String (Finset (List Nat)) :=
  Except.ok (extractGo accounts ∅)

/-! ## Stats engine (src/token_monitor.rs) -/

/-- `HolderStats` (token_monitor.rs:10-15); `change: i64` is `Int`,
`change_percent: f64` is `ℚ`. -/
structure HolderStats where
  count : Nat
  timestamp : Nat
  change : Int
  change_percent : ℚ
deriving DecidableEq, Repr

/-- Rust `usize as i64` on a 64-bit target: truncate to 64 bits and
reinterpret the top bit as the sign. -/
def i64_of_usize (x : Nat) : Int :=
  if x % 2 ^ 64 < 2 ^ 63 then ((x % 2 ^ 64 : Nat) : Int)
  else ((x % 2 ^ 64 : Nat) : Int) - 2 ^ 64

/-- `i64` wrapping of an out-of-range signed result (release semantics of
`i64` subtraction). -/
def wrap_i64 (z : Int) : Int :=
  (z + 2 ^ 63) % 2 ^ 64 - 2 ^ 63

/-- `calculate_stats` (token_monitor.rs:118-149).  The wall-clock timestamp
read is passed in as `now`.  `current_count as i64 - prev as i64` is the
wrapped 64-bit signed difference; the `f64` percentage is modelled over
`ℚ`. -/
def calculate_stats (current_count : Nat) (previous_count : Option Nat) (now : Nat) :
    HolderStats :=
  match previous_count with
  | some prev =>
    let diff : Int := wrap_i64 (i64_of_usize current_count - i64_of_usize prev)
    let percent : ℚ :=
      if 0 < prev then ((diff : ℚ) / (prev : ℚ)) * 100
      else if 0 < current_count then 100 else 0
    { count := current_count, timestamp := now, change := diff, change_percent := percent }
  | none =>
    { count := current_count, timestamp := now, change := 0, change_percent := 0 }

/-- An alert message pushed by `check_alerts`; the `format!` strings are
abstracted to a tag plus the formatted data (change, percent, previous
count, current count). -/
inductive Alert where
  | growth (change : Int) (percent : ℚ) (prev : Nat) (count : Nat)
  | drop (change : Int) (percent : ℚ) (prev : Nat) (count : Nat)
deriving DecidableEq, Repr

/-- Whether an alert is the growth alert. -/
def Alert.isGrowth : Alert → Bool
  | .growth .. => true
  | .drop .. => false

/-- Whether an alert is the drop alert. -/
def Alert.isDrop : Alert → Bool
  | .growth .. => false
  | .drop .. => true

/-- `Metrics` (token_monitor.rs:19-25). -/
structure Metrics where
  min_holders : Option Nat
  max_holders : Option Nat
  total_polls : Nat
  total_holders_sum : Nat
  alerts : List Alert
deriving DecidableEq, Repr

/-- `Metrics::add_alert` (token_monitor.rs:53-56): push onto the alert
list. -/
def Metrics.add_alert (m : Metrics) (a : Alert) : Metrics :=
  { m with alerts := m.alerts ++ [a] }

/-- `check_alerts` (token_monitor.rs:152-176): inside `if let Some(prev)`,
two independent conditionals on `stats.change_percent` (`f64` comparisons
modelled over `ℚ`). -/
def check_alerts (stats : HolderStats) (previous_count : Option Nat) (metrics : Metrics) :
    Metrics :=
  match previous_count with
  | some prev =>
    let m1 :=
      if (50 : ℚ) ≤ stats.change_percent then
        metrics.add_alert (.growth stats.change stats.change_percent prev stats.count)
      else metrics
    let m2 :=
      if stats.change_percent ≤ (-20 : ℚ) then
        m1.add_alert (.drop stats.change stats.change_percent prev stats.count)
      else m1
    m2
  | none => metrics

/-! ## Retry loop of the remote fetch client (src/rpc_client.rs) -/

/-- The outcome of one call to `_try_get_program_accounts`, as the caller
`_get_token_accounts_by_mint` observes it: either a batch of account
payloads, or an error whose rendered message may or may not contain one of
the two capability-limitation substrings (`"excluded from account secondary
indexes"` / `"this RPC method unavailable"`, rpc_client.rs:143-144).  The
substring test on the rendered message is abstracted to the Boolean it
evaluates to. -/
inductive InnerOutcome where
  | ok (accounts : List (List Nat))
  | errMsg (capabilityMsg : Bool)
deriving DecidableEq, Repr

/-- Errors the retry loop can record as `last_error`. -/
inductive FetchErr where
  | capabilityUnsupported
  | unableToFetch
  | attemptTimeout
deriving DecidableEq, Repr

/-- `_get_token_accounts_by_mint` (rpc_client.rs:127-169): a nonempty
`getProgramAccounts` result is returned as-is; an empty result falls through
to the final "Unable to fetch token accounts" error; an error whose message
matches the capability substrings becomes the remediation-text error
(rpc_client.rs:145-159), any other error also falls through to the final
error. -/
def _get_token_accounts_by_mint : InnerOutcome → Except FetchErr (List (List Nat))
  | .ok accounts => if accounts = [] then .error .unableToFetch else .ok accounts
  | .errMsg true => .error .capabilityUnsupported
  | .errMsg false => .error .unableToFetch

/-- What `tokio::time::timeout(self.timeout, self._get_token_accounts_by_mint(mint))`
produces for one attempt: the inner outcome, or the per-attempt timeout. -/
inductive AttemptResult where
  | inner (r : InnerOutcome)
  | timedOut
deriving DecidableEq, Repr

/-- The error an attempt contributes to `last_error`
(`none` when the attempt succeeds). -/
def attemptErr (a : AttemptResult) : Option FetchErr :=
  match a with
  | .inner r =>
    match _get_token_accounts_by_mint r with
    | .ok _ => none
    | .error e => some e
  | .timedOut => some .attemptTimeout

/-- The final result of `get_token_accounts_by_mint`: success, or the
`.context("Failed to get token accounts after all retries")` wrap of the last
recorded error; `noAttempt` marks the `last_error.unwrap()` panic that would
occur with `max_retries = 0`. -/
inductive FetchOutcome where
  | success (accounts : List (List Nat))
  | exhausted (last : FetchErr)
  | noAttempt
deriving DecidableEq, Repr

/-- A run of the retry loop: number of attempts issued, the backoff sleeps
performed between attempts (in ms, in order), and the final outcome. -/
structure RunResult where
  attempts : Nat
  sleeps : List Nat
  outcome : FetchOutcome
deriving DecidableEq, Repr

/-- The `for attempt in 0..max_retries` loop of `get_token_accounts_by_mint`
(rpc_client.rs:55-124), indexed by the number of remaining iterations
(`remaining` starts at `max_retries` and `attempt` at 0).  The network is an
oracle giving each attempt's outcome.  On `Ok(Ok)` the loop returns the
accounts; on `Ok(Err(e))` or a timeout it records `last_error` and, when
`attempt < max_retries - 1`, sleeps `exponential_backoff attempt` before the
next iteration. -/
def fetchGo (oracle : Nat → AttemptResult) (max_retries : Nat) :
    Nat → Nat → Option FetchErr → List Nat → RunResult
  | _remaining, attempt, last_error, sleeps =>
    match _remaining with
    | 0 =>
      ⟨attempt, sleeps,
        match last_error with
        | some e => .exhausted e
        | none => .noAttempt⟩
    | remaining + 1 =>
      match oracle attempt with
      | .inner r =>
        match _get_token_accounts_by_mint r with
        | .ok accounts => ⟨attempt + 1, sleeps, .success accounts⟩
        | .error e =>
          if attempt < max_retries - 1 then
            fetchGo oracle max_retries remaining (attempt + 1) (some e)
              (sleeps ++ [exponential_backoff attempt])
          else
            fetchGo oracle max_retries remaining (attempt + 1) (some e) sleeps
      | .timedOut =>
        if attempt < max_retries - 1 then
          fetchGo oracle max_retries remaining (attempt + 1) (some .attemptTimeout)
            (sleeps ++ [exponential_backoff attempt])
        else
          fetchGo oracle max_retries remaining (attempt + 1) (some .attemptTimeout) sleeps

/-- `get_token_accounts_by_mint` (rpc_client.rs:48-124): run the retry loop
from attempt 0 with no recorded error and no sleeps. -/
def get_token_accounts_by_mint (oracle : Nat → AttemptResult) (max_retries : Nat) :
    RunResult :=
  fetchGo oracle max_retries max_retries 0 none []

/-! ## Holder cache (src/api.rs) -/

/-- `HolderCacheEntry` (api.rs:21-29).  `timestamp` is the fetch time
(`fetched_at`); `first_seen` is the insertion time. -/
structure HolderCacheEntry where
  count : Nat
  timestamp : Nat
  mint : String
  request_count : Nat
  first_seen : Nat
deriving DecidableEq, Repr

/-- The cache table `HashMap<String, HolderCacheEntry>`, as an association
list with (in reachable states) pairwise-distinct keys. -/
abbrev Cache : Type := List (String × HolderCacheEntry)

/-- `HashMap::get`. -/
def lookupC : Cache → String → Option HolderCacheEntry
  | [], _ => none
  | (k, v) :: rest, m => if k = m then some v else lookupC rest m

/-- `HashMap::contains_key`. -/
def containsC (c : Cache) (m : String) : Bool :=
  (lookupC c m).isSome

/-- `HashMap::insert`: replace the resident entry or append a new one. -/
def insertC : Cache → String → HolderCacheEntry → Cache
  | [], m, e => [(m, e)]
  | (k, v) :: rest, m, e =>
    if k = m then (m, e) :: rest else (k, v) :: insertC rest m e

/-- `HashMap::remove`: drop the (unique) binding of the key, if present. -/
def removeC : Cache → String → Cache
  | [], _ => []
  | (k, v) :: rest, m => if k = m then rest else (k, v) :: removeC rest m

/-- `HashMap::keys` (snapshot taken by the refresher, api.rs:67-69). -/
def keysC (c : Cache) : List String :=
  c.map Prod.fst

/-- The accumulator pass of `Iterator::min_by_key` (api.rs:167-169): keep the
first entry with the strictly smallest `timestamp`. -/
def oldestGo : (String × HolderCacheEntry) → Cache → (String × HolderCacheEntry)
  | best, [] => best
  | best, kv :: rest =>
    oldestGo (if kv.2.timestamp < best.2.timestamp then kv else best) rest

/-- `cache_write.iter().min_by_key(|(_, entry)| entry.timestamp)`
(api.rs:167-170). -/
def oldestPair : Cache → Option (String × HolderCacheEntry)
  | [] => none
  | kv :: rest => some (oldestGo kv rest)

/-- The evicted key: `min_by_key(...).map(|(mint, _)| mint.clone())`. -/
def oldest_mint (c : Cache) : Option String :=
  (oldestPair c).map Prod.fst

/-- `HolderCache::new` sets `max_tokens: 2` (api.rs:47). -/
def max_tokens : Nat := 2

/-- The capacity check of the miss path (api.rs:164-176): when the table is
full and the key is new, remove the entry with the oldest `timestamp`. -/
def evictIfFull (c : Cache) (m : String) : Cache :=
  if max_tokens ≤ c.length ∧ containsC c m = false then
    match oldest_mint c with
    | some old_mint => removeC c old_mint
    | none => c
  else c

/-- The cache-store block of the miss path of `get_holder_count`
(api.rs:160-180): evict if full, then insert the freshly fetched entry
(`request_count = 1`, `first_seen = now`, `timestamp = now`). -/
def get_holder_count_store (c : Cache) (m : String) (cnt now : Nat) : Cache :=
  insertC (evictIfFull c m) m ⟨cnt, now, m, 1, now⟩

/-- The hit path of `get_holder_count` (api.rs:126-134): bump
`request_count` in place and return a clone of the updated entry. -/
def cache_hit (c : Cache) (m : String) (e : HolderCacheEntry) :
    HolderCacheEntry × Cache :=
  let e2 := { e with request_count := e.request_count + 1 }
  (e2, insertC c m e2)

/-- `HolderCache::get_holder_count` (api.rs:119-183).  The RPC fetch of the
miss path is an oracle: `fetch_result = some cnt` is a successful
`fetch_holder_count`, `none` is a fetch failure (the error is propagated and
no entry is created).  The clock read at function entry is `now`. -/
def get_holder_count (c : Cache) (m : String) (fetch_result : Option Nat) (now : Nat) :
    Except Unit HolderCacheEntry × Cache :=
  match lookupC c m with
  | some e =>
    let hc := cache_hit c m e
    (.ok hc.1, hc.2)
  | none =>
    match fetch_result with
    | none => (.error (), c)
    | some cnt => (.ok ⟨cnt, now, m, 1, now⟩, get_holder_count_store c m cnt now)

/-- The per-key update of the background refresher (`start_refresh_task`,
api.rs:75-107), after `fetch_holder_count` succeeded with `cnt`: keep the
resident entry's `request_count`/`first_seen` when the key is still there,
else use `(0, now)`, and insert `count = cnt`, `timestamp = now`. -/
def refresh_update (c : Cache) (m : String) (cnt now : Nat) : Cache :=
  match lookupC c m with
  | some existing => insertC c m ⟨cnt, now, m, existing.request_count, existing.first_seen⟩
  | none => insertC c m ⟨cnt, now, m, 0, now⟩

/-- A state of the shared system: the cache table plus the background
refresher's snapshot worklist `mints_to_refresh` still to be processed in the
current tick (api.rs:57-72). -/
structure SysState where
  cache : Cache
  pending : List String
deriving DecidableEq

/-- One scheduler step of the system, at the granularity of the lock-protected
critical sections (every await point releases the table between steps):
a foreground cache hit, a foreground miss-path fetch-and-store, the
refresher snapshotting the key set at a tick (having finished the previous
worklist), and the refresher processing the head of its worklist with a
successful or failed fetch. -/
inductive SysStep : SysState → SysState → Prop where
  | hit : ∀ (s : SysState) (m : String) (e : HolderCacheEntry),
      lookupC s.cache m = some e →
      SysStep s ⟨(cache_hit s.cache m e).2, s.pending⟩
  | miss : ∀ (s : SysState) (m : String) (cnt now : Nat),
      lookupC s.cache m = none →
      SysStep s ⟨get_holder_count_store s.cache m cnt now, s.pending⟩
  | snapshot : ∀ (s : SysState),
      s.pending = [] →
      SysStep s ⟨s.cache, keysC s.cache⟩
  | refreshOk : ∀ (s : SysState) (m : String) (rest : List String) (cnt now : Nat),
      s.pending = m :: rest →
      SysStep s ⟨refresh_update s.cache m cnt now, rest⟩
  | refreshErr : ∀ (s : SysState) (m : String) (rest : List String),
      s.pending = m :: rest →
      SysStep s ⟨s.cache, rest⟩

/-- States reachable from the initial empty cache with an idle refresher. -/
def Reachable (s : SysState) : Prop :=
  Relation.ReflTransGen SysStep ⟨[], []⟩ s

/-! ## Serving layer (src/api.rs, `get_holders` endpoint) -/

/-- `HolderResponse` (api.rs:250-256). -/
structure HolderResponse where
  mint : String
  holders : Nat
  timestamp : Nat
  cached : Bool
deriving DecidableEq, Repr

/-- The success path of the `get_holders` endpoint (api.rs:259-289):
on `Ok(entry)` respond with `cached = entry.request_count > 1`; a
`get_holder_count` error becomes an error status. -/
def get_holders (c : Cache) (m : String) (fetch_result : Option Nat) (now : Nat) :
    Except Unit HolderResponse × Cache :=
  match get_holder_count c m fetch_result now with
  | (.ok entry, c2) =>
    (.ok ⟨m, entry.count, entry.timestamp, decide (1 < entry.request_count)⟩, c2)
  | (.error e, c2) => (.error e, c2)

/-! ## Theorems: backoff policy (C8) -/

/-- C8 counterexample: at attempt index 61 the `u64` product
`1000 * 2^61 = 125 * 2^64` wraps to 0, so `exponential_backoff 61` is 0 ms,
while the claimed formula `min(base_delay * 2^attempt, backoff_cap)` gives
10000 ms. -/
theorem exponential_backoff_wrap_counterexample :
    exponential_backoff 61 = 0 ∧
    min (1000 * 2 ^ 61) 10000 = 10000 ∧
    exponential_backoff 61 ≠ min (1000 * 2 ^ 61) 10000 := by
  refine ⟨by decide, by decide, by decide⟩

/-- C8 (amended): for attempt indices up to 60 the backoff delay equals
`min(1000 * 2^attempt, 10000)` milliseconds (base 1 s, cap 10 s), and for
every attempt index the delay never exceeds 10000 ms (the cap is applied
after the wrapping product, so it bounds every result). -/
theorem exponential_backoff_spec (attempt : Nat) :
    (attempt ≤ 60 → exponential_backoff attempt = min (1000 * 2 ^ attempt) 10000) ∧
    exponential_backoff attempt ≤ 10000 := by
  constructor
  · have h : ∀ a : Nat, a ≤ 60 → exponential_backoff a = min (1000 * 2 ^ a) 10000 := by
      decide
    exact h attempt
  · exact Nat.min_le_right _ _

/-- C8 witness: the amended statement at attempt index 3. -/
theorem exponential_backoff_spec_witness :
    exponential_backoff 3 = min (1000 * 2 ^ 3) 10000 ∧ exponential_backoff 3 ≤ 10000 :=
  ⟨(exponential_backoff_spec 3).1 (by decide), (exponential_backoff_spec 3).2⟩

/-! ## Theorems: stats engine (C4, C5) -/

/-- C4 counterexample: at `current = 2^63`, `previous = Some(0)` the cast
`current as i64` wraps to `-2^63`, so `calculate_stats` returns
`change = -2^63`, not the claimed signed difference `current - previous =
2^63`. -/
theorem calculate_stats_wrap_counterexample :
    (calculate_stats (2 ^ 63) (some 0) 0).change = -(2 ^ 63 : Int) ∧
    (calculate_stats (2 ^ 63) (some 0) 0).change ≠ ((2 ^ 63 : Nat) : Int) - ((0 : Nat) : Int) := by
  refine ⟨by decide, by decide⟩

/-- C4 (amended): for `current` and `previous` values below `2^63` (the
`i64`-representable range; the casts `as i64` wrap above it),
`calculate_stats` returns `change = current - previous` as a signed integer
(0 when `previous` is `None`), and `change_percent = (change / p) * 100` when
`previous = Some p` with `p > 0`, `100.0` when `p = 0` and `current > 0`,
`0.0` when `p = 0` and `current = 0`, and `0.0` when `previous` is `None`
(`f64` arithmetic modelled exactly over `ℚ`). -/
theorem calculate_stats_spec (current : Nat) (previous : Option Nat) (now : Nat)
    (hc : current < 2 ^ 63) (hp : ∀ p, previous = some p → p < 2 ^ 63) :
    (previous = none →
      (calculate_stats current previous now).change = 0 ∧
      (calculate_stats current previous now).change_percent = 0) ∧
    (∀ p, previous = some p →
      (calculate_stats current previous now).change = (current : Int) - (p : Int) ∧
      (0 < p →
        (calculate_stats current previous now).change_percent =
          (((current : Int) - (p : Int) : Int) : ℚ) / (p : ℚ) * 100) ∧
      (p = 0 → 0 < current →
        (calculate_stats current previous now).change_percent = 100) ∧
      (p = 0 → current = 0 →
        (calculate_stats current previous now).change_percent = 0)) := by
  constructor
  · rintro rfl
    exact ⟨rfl, rfl⟩
  · rintro p rfl
    have hplt := hp p rfl
    have hcast : ∀ x : Nat, x < 2 ^ 63 → i64_of_usize x = (x : Int) := by
      intro x hx
      have hmod : x % 2 ^ 64 = x := Nat.mod_eq_of_lt (lt_trans hx (by norm_num))
      unfold i64_of_usize
      rw [hmod, if_pos hx]
    have hdiff : wrap_i64 (i64_of_usize current - i64_of_usize p) =
        (current : Int) - (p : Int) := by
      rw [hcast current hc, hcast p hplt]
      unfold wrap_i64
      have h1 : (0 : Int) ≤ (current : Int) - (p : Int) + 2 ^ 63 := by
        have : (0 : Int) ≤ (current : Int) := Int.ofNat_nonneg current
        have hp0 : (p : Int) < 2 ^ 63 := by exact_mod_cast hplt
        omega
      have h2 : (current : Int) - (p : Int) + 2 ^ 63 < 2 ^ 64 := by
        have hc0 : (current : Int) < 2 ^ 63 := by exact_mod_cast hc
        have : (0 : Int) ≤ (p : Int) := Int.ofNat_nonneg p
        omega
      rw [Int.emod_eq_of_lt h1 h2]
      ring
    refine ⟨?_, ?_, ?_, ?_⟩
    · simpa [calculate_stats] using hdiff
    · intro hppos
      simp only [calculate_stats, if_pos hppos]
      rw [hdiff]
    · rintro rfl hcur
      simp [calculate_stats, hcur]
    · rintro rfl rfl
      simp [calculate_stats]

/-- C4 witness: the amended statement at `current = 150`,
`previous = Some 100`. -/
theorem calculate_stats_spec_witness :
    (calculate_stats 150 (some 100) 0).change = (150 : Int) - (100 : Int) ∧
    (calculate_stats 150 (some 100) 0).change_percent =
      (((150 : Nat) : Int) - ((100 : Nat) : Int) : Int) / ((100 : Nat) : ℚ) * 100 := by
  have h := (calculate_stats_spec 150 (some 100) 0 (by decide)
    (fun p hp => by injection hp with h; omega)).2 100 rfl
  exact ⟨h.1, h.2.1 (by decide)⟩

/-- C5: inside one call of `check_alerts` the appended alerts are exactly:
a growth alert iff `previous.is_some()` and `change_percent ≥ 50`, and a
drop alert iff `previous.is_some()` and `change_percent ≤ -20`; the two
conditionals are independent, and at most one alert is appended per call
(50 and -20 cannot hold together). -/
theorem check_alerts_spec (stats : HolderStats) (previous_count : Option Nat)
    (metrics : Metrics) :
    ∃ app : List Alert,
      (check_alerts stats previous_count metrics).alerts = metrics.alerts ++ app ∧
      ((∃ a ∈ app, a.isGrowth = true) ↔
        previous_count.isSome = true ∧ (50 : ℚ) ≤ stats.change_percent) ∧
      ((∃ a ∈ app, a.isDrop = true) ↔
        previous_count.isSome = true ∧ stats.change_percent ≤ (-20 : ℚ)) ∧
      app.length ≤ 1 := by
  match previous_count with
  | none =>
    refine ⟨[], by simp [check_alerts], ?_, ?_, by simp⟩
    · simp
    · simp
  | some prev =>
    by_cases h1 : (50 : ℚ) ≤ stats.change_percent
    · have h2 : ¬ stats.change_percent ≤ (-20 : ℚ) := by
        intro h2
        have : (50 : ℚ) ≤ -20 := le_trans h1 h2
        norm_num at this
      refine ⟨[.growth stats.change stats.change_percent prev stats.count], ?_, ?_, ?_, by simp⟩
      · simp [check_alerts, Metrics.add_alert, if_pos h1, if_neg h2]
      · simp [Alert.isGrowth, h1]
      · simp [Alert.isDrop, h2]
    · by_cases h2 : stats.change_percent ≤ (-20 : ℚ)
      · refine ⟨[.drop stats.change stats.change_percent prev stats.count], ?_, ?_, ?_, by simp⟩
        · simp [check_alerts, Metrics.add_alert, if_neg h1, if_pos h2]
        · simp [Alert.isGrowth, h1]
        · simp [Alert.isDrop, h2]
      · refine ⟨[], ?_, ?_, ?_, by simp⟩
        · simp [check_alerts, Metrics.add_alert, if_neg h1, if_neg h2]
        · simp [h1]
        · simp [h2]

/-! ## Theorems: account extractor (C6) -/

/-- Membership in the extractor fold: an owner is collected iff it was
already in the accumulator or some record passes all three filters. -/
lemma extractGo_mem (o : List Nat) :
    ∀ (accounts : List (List Nat)) (acc : Finset (List Nat)),
      o ∈ extractGo accounts acc ↔
        o ∈ acc ∨ ∃ d ∈ accounts,
          72 ≤ d.length ∧ amountOf d ≠ 0 ∧ o ≠ default_pubkey ∧ ownerOf d = o := by
  intro accounts
  induction accounts with
  | nil => intro acc; simp [extractGo]
  | cons d rest ih =>
    intro acc
    by_cases hlen : d.length < 72
    · have hne : ¬ 72 ≤ d.length := by omega
      simp only [extractGo, if_pos hlen, ih, List.mem_cons]
      constructor
      · rintro (h | ⟨x, hx, hprops⟩)
        · exact Or.inl h
        · exact Or.inr ⟨x, Or.inr hx, hprops⟩
      · rintro (h | ⟨x, (rfl | hx), hprops⟩)
        · exact Or.inl h
        · exact absurd hprops.1 hne
        · exact Or.inr ⟨x, hx, hprops⟩
    · have hlen' : 72 ≤ d.length := by omega
      have h64 : 64 ≤ d.length := by omega
      by_cases hamt : 0 < amountOf d
      · have hamt' : amountOf d ≠ 0 := by omega
        by_cases howner : ownerOf d ≠ default_pubkey
        · simp only [extractGo, if_neg hlen, if_pos hamt, if_pos h64, if_pos howner, ih,
            Finset.mem_insert, List.mem_cons]
          constructor
          · rintro ((rfl | h) | ⟨x, hx, hprops⟩)
            · exact Or.inr ⟨d, Or.inl rfl, hlen', hamt', howner, rfl⟩
            · exact Or.inl h
            · exact Or.inr ⟨x, Or.inr hx, hprops⟩
          · rintro (h | ⟨x, (rfl | hx), hprops⟩)
            · exact Or.inl (Or.inr h)
            · exact Or.inl (Or.inl hprops.2.2.2.symm)
            · exact Or.inr ⟨x, hx, hprops⟩
        · simp only [extractGo, if_neg hlen, if_pos hamt, if_pos h64, if_neg howner, ih,
            List.mem_cons]
          rw [not_not] at howner
          constructor
          · rintro (h | ⟨x, hx, hprops⟩)
            · exact Or.inl h
            · exact Or.inr ⟨x, Or.inr hx, hprops⟩
          · rintro (h | ⟨x, (rfl | hx), hprops⟩)
            · exact Or.inl h
            · exact absurd (by rw [← hprops.2.2.2, howner]) hprops.2.2.1
            · exact Or.inr ⟨x, hx, hprops⟩
      · have hamt' : amountOf d = 0 := by omega
        simp only [extractGo, if_neg hlen, if_neg hamt, ih, List.mem_cons]
        constructor
        · rintro (h | ⟨x, hx, hprops⟩)
          · exact Or.inl h
          · exact Or.inr ⟨x, Or.inr hx, hprops⟩
        · rintro (h | ⟨x, (rfl | hx), hprops⟩)
          · exact Or.inl h
          · exact absurd hprops.2.1 (by simp [hamt'])
          · exact Or.inr ⟨x, hx, hprops⟩

/-- C6: `extract_holders` always returns `Ok`, and the returned set contains
exactly the (deduplicated) owner identifiers (bytes 32..64) of records whose
payload is at least 72 bytes, whose little-endian `u64` balance at offset 64
is nonzero, and whose owner field is not the all-zero default identifier;
shorter, zero-balance and default-owner records contribute nothing and do
not abort the extraction of the rest. -/
theorem extract_holders_spec (accounts : List (List Nat)) :
    ∃ S : Finset (List Nat),
      extract_holders accounts = Except.ok S ∧
      ∀ o : List Nat,
        o ∈ S ↔ ∃ d ∈ accounts,
          72 ≤ d.length ∧ amountOf d ≠ 0 ∧ o ≠ default_pubkey ∧ ownerOf d = o := by
  refine ⟨extractGo accounts ∅, rfl, fun o => ?_⟩
  rw [extractGo_mem]
  simp

/-! ## Theorems: retry loop (C7, C1) -/

/-- One-step unfolding of the retry loop at its exit. -/
lemma fetchGo_zero (oracle : Nat → AttemptResult) (max_retries attempt : Nat)
    (lastE : Option FetchErr) (sleeps : List Nat) :
    fetchGo oracle max_retries 0 attempt lastE sleeps =
      ⟨attempt, sleeps,
        match lastE with
        | some e => .exhausted e
        | none => .noAttempt⟩ := rfl

/-- One-step unfolding of the retry loop at a remaining iteration. -/
lemma fetchGo_succ (oracle : Nat → AttemptResult) (max_retries r attempt : Nat)
    (lastE : Option FetchErr) (sleeps : List Nat) :
    fetchGo oracle max_retries (r + 1) attempt lastE sleeps =
      match oracle attempt with
      | .inner r0 =>
        match _get_token_accounts_by_mint r0 with
        | .ok accounts => ⟨attempt + 1, sleeps, .success accounts⟩
        | .error e =>
          if attempt < max_retries - 1 then
            fetchGo oracle max_retries r (attempt + 1) (some e)
              (sleeps ++ [exponential_backoff attempt])
          else
            fetchGo oracle max_retries r (attempt + 1) (some e) sleeps
      | .timedOut =>
        if attempt < max_retries - 1 then
          fetchGo oracle max_retries r (attempt + 1) (some .attemptTimeout)
            (sleeps ++ [exponential_backoff attempt])
        else
          fetchGo oracle max_retries r (attempt + 1) (some .attemptTimeout) sleeps := rfl

/-- When every remaining attempt fails, the retry loop runs all of them,
sleeping the exponential backoff between consecutive attempts, and ends with
the `exhausted` wrap of the last attempt's error. -/
lemma fetchGo_all_fail (oracle : Nat → AttemptResult) (max_retries : Nat) :
    ∀ (remaining attempt : Nat) (lastE : Option FetchErr) (sleeps : List Nat),
      attempt + remaining = max_retries → 1 ≤ remaining →
      (∀ a, attempt ≤ a → a < max_retries → attemptErr (oracle a) ≠ none) →
      ∃ e, attemptErr (oracle (max_retries - 1)) = some e ∧
        fetchGo oracle max_retries remaining attempt lastE sleeps =
          ⟨max_retries,
            sleeps ++ (List.range' attempt (remaining - 1)).map exponential_backoff,
            .exhausted e⟩ := by
  intro remaining
  induction remaining with
  | zero => intro attempt lastE sleeps hsum h1; omega
  | succ r ih =>
    intro attempt lastE sleeps hsum _ hfail
    have ha : attempt < max_retries := by omega
    have hf := hfail attempt (Nat.le_refl attempt) ha
    rcases ho : oracle attempt with r0 | _
    · rcases hi : _get_token_accounts_by_mint r0 with e0 | accs
      case ok => exact absurd (by simp [attemptErr, ho, hi]) hf
      case error =>
        by_cases hlt : attempt < max_retries - 1
        · have hr : 1 ≤ r := by omega
          obtain ⟨e, he, heq⟩ := ih (attempt + 1) (some e0)
            (sleeps ++ [exponential_backoff attempt]) (by omega) hr
            (fun a h1 h2 => hfail a (by omega) h2)
          refine ⟨e, he, ?_⟩
          obtain ⟨r', rfl⟩ : ∃ r', r = r' + 1 := ⟨r - 1, by omega⟩
          rw [fetchGo_succ, ho]
          simp only [hi, if_pos hlt, heq]
          simp [List.range'_succ]
        · have hr0 : r = 0 := by omega
          subst hr0
          have hatt : attempt = max_retries - 1 := by omega
          refine ⟨e0, by rw [← hatt]; simp [attemptErr, ho, hi], ?_⟩
          rw [fetchGo_succ, ho]
          simp only [hi, if_neg hlt]
          rw [fetchGo_zero]
          have hmr : attempt + 1 = max_retries := by omega
          simp [List.range', hmr]
    · by_cases hlt : attempt < max_retries - 1
      · have hr : 1 ≤ r := by omega
        obtain ⟨e, he, heq⟩ := ih (attempt + 1) (some .attemptTimeout)
          (sleeps ++ [exponential_backoff attempt]) (by omega) hr
          (fun a h1 h2 => hfail a (by omega) h2)
        refine ⟨e, he, ?_⟩
        obtain ⟨r', rfl⟩ : ∃ r', r = r' + 1 := ⟨r - 1, by omega⟩
        rw [fetchGo_succ, ho]
        simp only [if_pos hlt, heq]
        simp [List.range'_succ]
      · have hr0 : r = 0 := by omega
        subst hr0
        have hatt : attempt = max_retries - 1 := by omega
        refine ⟨.attemptTimeout, by rw [← hatt]; simp [attemptErr, ho], ?_⟩
        rw [fetchGo_succ, ho]
        simp only [if_neg hlt]
        rw [fetchGo_zero]
        have hmr : attempt + 1 = max_retries := by omega
        simp [List.range', hmr]

/-- C7: with `max_retries = n ≥ 1` and a backend whose every attempt fails
with a transient error or a per-attempt timeout (a failing attempt that is
not the capability-unsupported error), `get_token_accounts_by_mint` makes
exactly `n` attempts, sleeps `exponential_backoff 0, …, exponential_backoff
(n-2)` between consecutive attempts (`n - 1` sleeps), and fails with the
exhausted-retries wrap of the last recorded error. -/
theorem retry_exhaustion_spec (n : Nat) (oracle : Nat → AttemptResult) (hn : 1 ≤ n)
    (htrans : ∀ a, a < n →
      attemptErr (oracle a) ≠ none ∧
      attemptErr (oracle a) ≠ some FetchErr.capabilityUnsupported) :
    ∃ e, attemptErr (oracle (n - 1)) = some e ∧ e ≠ FetchErr.capabilityUnsupported ∧
      get_token_accounts_by_mint oracle n =
        ⟨n, (List.range (n - 1)).map exponential_backoff, .exhausted e⟩ := by
  obtain ⟨e, he, heq⟩ := fetchGo_all_fail oracle n n 0 none [] (by omega) hn
    (fun a _ h2 => (htrans a h2).1)
  refine ⟨e, he, ?_, ?_⟩
  · rintro rfl
    exact (htrans (n - 1) (by omega)).2 he
  · rw [get_token_accounts_by_mint, heq]
    simp [List.range_eq_range']

/-- C7 witness: `max_retries = 3` against an always-timing-out backend makes
3 attempts with sleeps of 1000 ms and 2000 ms and fails exhausted. -/
theorem retry_exhaustion_spec_witness :
    (List.range (3 - 1)).map exponential_backoff = [1000, 2000] ∧
    ∃ e, attemptErr ((fun _ => AttemptResult.timedOut) (3 - 1)) = some e ∧
      e ≠ FetchErr.capabilityUnsupported ∧
      get_token_accounts_by_mint (fun _ => AttemptResult.timedOut) 3 =
        ⟨3, (List.range (3 - 1)).map exponential_backoff, .exhausted e⟩ :=
  ⟨by decide,
    retry_exhaustion_spec 3 (fun _ => AttemptResult.timedOut) (by decide)
      (fun a _ => ⟨by simp [attemptErr], by simp [attemptErr]⟩)⟩

/-- C1 counterexample: with `max_retries = 3` and every attempt failing with
the capability-unsupported (remediation-text) error, the loop does NOT
short-circuit after the first failing attempt: it makes 3 attempts and
sleeps 1000 ms and 2000 ms before returning the error — refuting "zero
further attempts and no backoff sleep". -/
theorem capability_error_retried_counterexample :
    (get_token_accounts_by_mint (fun _ => .inner (.errMsg true)) 3).attempts = 3 ∧
    (get_token_accounts_by_mint (fun _ => .inner (.errMsg true)) 3).sleeps = [1000, 2000] ∧
    (get_token_accounts_by_mint (fun _ => .inner (.errMsg true)) 3).outcome =
      .exhausted FetchErr.capabilityUnsupported := by
  refine ⟨by decide, by decide, by decide⟩

/-- C1 (amended): a capability-unsupported inner error is retried exactly
like any other error — there is no short-circuit in the retry loop.  When
every attempt fails with it, the operation makes all `max_retries = n ≥ 1`
attempts, with the usual `n - 1` backoff sleeps, and then returns the
capability error wrapped in the exhausted-retries context (so the
remediation text still reaches the caller, but only after the full retry
schedule). -/
theorem capability_error_retried (n : Nat) (oracle : Nat → AttemptResult) (hn : 1 ≤ n)
    (hcap : ∀ a, a < n → oracle a = .inner (.errMsg true)) :
    get_token_accounts_by_mint oracle n =
      ⟨n, (List.range (n - 1)).map exponential_backoff,
        .exhausted FetchErr.capabilityUnsupported⟩ := by
  obtain ⟨e, he, heq⟩ := fetchGo_all_fail oracle n n 0 none [] (by omega) hn
    (fun a _ h2 => by rw [hcap a h2]; simp [attemptErr, _get_token_accounts_by_mint])
  rw [hcap (n - 1) (by omega)] at he
  simp only [attemptErr, _get_token_accounts_by_mint, Option.some.injEq] at he
  rw [get_token_accounts_by_mint, heq, ← he]
  simp [List.range_eq_range']

/-- C1 witness (amended claim): the capability oracle with `max_retries = 3`. -/
theorem capability_error_retried_witness :
    get_token_accounts_by_mint (fun _ => .inner (.errMsg true)) 3 =
      ⟨3, (List.range (3 - 1)).map exponential_backoff,
        .exhausted FetchErr.capabilityUnsupported⟩ :=
  capability_error_retried 3 (fun _ => .inner (.errMsg true)) (by decide)
    (fun _ _ => rfl)

/-! ## Cache table lemmas -/

/-- Inserting a key makes it resident with the inserted entry. -/
lemma lookupC_insertC_self (c : Cache) (m : String) (e : HolderCacheEntry) :
    lookupC (insertC c m e) m = some e := by
  induction c with
  | nil => simp [insertC, lookupC]
  | cons kv rest ih =>
    obtain ⟨k, v⟩ := kv
    by_cases hk : k = m
    · simp [insertC, hk, lookupC]
    · simp [insertC, hk, lookupC, ih]

/-- Inserting a key leaves every other key's binding unchanged. -/
lemma lookupC_insertC_ne (c : Cache) (m : String) (e : HolderCacheEntry) (k : String)
    (h : k ≠ m) :
    lookupC (insertC c m e) k = lookupC c k := by
  induction c with
  | nil => simp [insertC, lookupC, Ne.symm h]
  | cons kv rest ih =>
    obtain ⟨a, v⟩ := kv
    by_cases ha : a = m
    · subst ha
      simp [insertC, lookupC, Ne.symm h]
    · by_cases hak : a = k
      · simp [insertC, ha, lookupC, hak, h]
      · simp [insertC, ha, lookupC, hak, ih]

/-- Removing a key leaves every other key's binding unchanged. -/
lemma lookupC_removeC_ne (c : Cache) (k k' : String) (h : k' ≠ k) :
    lookupC (removeC c k) k' = lookupC c k' := by
  induction c with
  | nil => rfl
  | cons kv rest ih =>
    obtain ⟨a, v⟩ := kv
    by_cases ha : a = k
    · subst ha
      simp [removeC, lookupC, Ne.symm h]
    · by_cases hak : a = k'
      · simp [removeC, ha, lookupC, hak, h]
      · simp [removeC, ha, lookupC, hak, ih]

/-- A key not in the key list is not resident. -/
lemma lookupC_eq_none_of_not_mem (c : Cache) (m : String) (h : m ∉ keysC c) :
    lookupC c m = none := by
  induction c with
  | nil => rfl
  | cons kv rest ih =>
    obtain ⟨a, v⟩ := kv
    simp only [keysC, List.map_cons, List.mem_cons] at h
    push_neg at h
    simp [lookupC, Ne.symm h.1, ih (by simpa [keysC] using h.2)]

/-- A resident key is in the key list. -/
lemma mem_keys_of_lookupC (c : Cache) (m : String) (h : (lookupC c m).isSome = true) :
    m ∈ keysC c := by
  induction c with
  | nil => simp [lookupC] at h
  | cons kv rest ih =>
    obtain ⟨a, v⟩ := kv
    by_cases ha : a = m
    · simp [keysC, ha]
    · simp only [lookupC, if_neg ha] at h
      have hrest := ih h
      simp only [keysC, List.map_cons]
      exact List.mem_cons_of_mem a (by simpa [keysC] using hrest)

/-- With pairwise-distinct keys, a pair in the table is what lookup finds. -/
lemma lookupC_eq_of_mem_nodup (c : Cache) (k : String) (v : HolderCacheEntry)
    (hnd : (keysC c).Nodup) (h : (k, v) ∈ c) :
    lookupC c k = some v := by
  induction c with
  | nil => simp at h
  | cons kv rest ih =>
    obtain ⟨a, w⟩ := kv
    simp only [keysC, List.map_cons, List.nodup_cons] at hnd
    rcases List.mem_cons.mp h with heq | hmem
    · obtain ⟨rfl, rfl⟩ := Prod.mk.injEq .. ▸ heq
      simp [lookupC]
    · have hk : k ∈ keysC rest := by
        simpa [keysC] using List.mem_map_of_mem Prod.fst hmem
      have hak : a ≠ k := fun hak => hnd.1 (hak ▸ hk)
      simp [lookupC, hak, ih (by simpa [keysC] using hnd.2) hmem]

/-- With pairwise-distinct keys, removing a key makes it non-resident. -/
lemma lookupC_removeC_self (c : Cache) (k : String) (hnd : (keysC c).Nodup) :
    lookupC (removeC c k) k = none := by
  induction c with
  | nil => rfl
  | cons kv rest ih =>
    obtain ⟨a, v⟩ := kv
    simp only [keysC, List.map_cons, List.nodup_cons] at hnd
    by_cases ha : a = k
    · subst ha
      simp only [removeC, if_pos rfl]
      exact lookupC_eq_none_of_not_mem rest a hnd.1
    · simp [removeC, ha, lookupC, ih (by simpa [keysC] using hnd.2)]

/-- Removing a key cannot make an absent key resident. -/
lemma lookupC_removeC_of_none (c : Cache) (k m : String) (h : lookupC c m = none) :
    lookupC (removeC c k) m = none := by
  induction c with
  | nil => rfl
  | cons kv rest ih =>
    obtain ⟨a, v⟩ := kv
    by_cases ham : a = m
    · simp [lookupC, ham] at h
    · simp only [lookupC, if_neg ham] at h
      by_cases hak : a = k
      · simpa [removeC, hak] using h
      · simp [removeC, hak, lookupC, ham, ih h]

/-- Inserting a resident key preserves the table size. -/
lemma insertC_length_of_contains (c : Cache) (m : String) (e : HolderCacheEntry)
    (h : containsC c m = true) :
    (insertC c m e).length = c.length := by
  induction c with
  | nil => simp [containsC, lookupC] at h
  | cons kv rest ih =>
    obtain ⟨a, v⟩ := kv
    by_cases ha : a = m
    · simp [insertC, ha]
    · simp only [containsC, lookupC, if_neg ha] at h
      simp [insertC, ha, ih h]

/-- Inserting a new key grows the table size by one. -/
lemma insertC_length_of_not_contains (c : Cache) (m : String) (e : HolderCacheEntry)
    (h : containsC c m = false) :
    (insertC c m e).length = c.length + 1 := by
  induction c with
  | nil => rfl
  | cons kv rest ih =>
    obtain ⟨a, v⟩ := kv
    by_cases ha : a = m
    · simp [containsC, lookupC, ha] at h
    · simp only [containsC, lookupC, if_neg ha] at h
      simp [insertC, ha, ih h]

/-- Removing a resident key shrinks the table size by one. -/
lemma removeC_length_of_contains (c : Cache) (k : String) (h : containsC c k = true) :
    (removeC c k).length + 1 = c.length := by
  induction c with
  | nil => simp [containsC, lookupC] at h
  | cons kv rest ih =>
    obtain ⟨a, v⟩ := kv
    by_cases ha : a = k
    · simp [removeC, ha]
    · simp only [containsC, lookupC, if_neg ha] at h
      simp [removeC, ha, ih h]

/-- The running minimum of `min_by_key` is one of its candidates. -/
lemma oldestGo_mem (best : String × HolderCacheEntry) (c : Cache) :
    oldestGo best c = best ∨ oldestGo best c ∈ c := by
  induction c generalizing best with
  | nil => exact Or.inl rfl
  | cons kv rest ih =>
    rw [oldestGo]
    rcases ih (if kv.2.timestamp < best.2.timestamp then kv else best) with h | h
    · rw [h]
      by_cases hc : kv.2.timestamp < best.2.timestamp
      · rw [if_pos hc]
        exact Or.inr (List.mem_cons_self kv rest)
      · rw [if_neg hc]
        exact Or.inl rfl
    · exact Or.inr (List.mem_cons_of_mem kv h)

/-- The running minimum of `min_by_key` has the smallest timestamp. -/
lemma oldestGo_min (best : String × HolderCacheEntry) (c : Cache) :
    (oldestGo best c).2.timestamp ≤ best.2.timestamp ∧
    ∀ q ∈ c, (oldestGo best c).2.timestamp ≤ q.2.timestamp := by
  induction c generalizing best with
  | nil => exact ⟨le_refl _, by simp⟩
  | cons kv rest ih =>
    obtain ⟨h1, h2⟩ := ih (if kv.2.timestamp < best.2.timestamp then kv else best)
    rw [oldestGo]
    by_cases hc : kv.2.timestamp < best.2.timestamp
    · rw [if_pos hc] at h1 h2 ⊢
      refine ⟨le_trans h1 (le_of_lt hc), ?_⟩
      intro q hq
      rcases List.mem_cons.mp hq with rfl | hq
      · exact h1
      · exact h2 q hq
    · rw [if_neg hc] at h1 h2 ⊢
      refine ⟨h1, ?_⟩
      intro q hq
      rcases List.mem_cons.mp hq with rfl | hq
      · exact le_trans h1 (not_lt.mp hc)
      · exact h2 q hq

/-- `contains_key` is false exactly when lookup misses. -/
lemma containsC_false_iff (c : Cache) (m : String) :
    containsC c m = false ↔ lookupC c m = none := by
  rw [containsC]
  cases lookupC c m <;> simp

/-- Any pair in the table makes its key resident. -/
lemma lookupC_isSome_of_mem (c : Cache) (p : String × HolderCacheEntry) (h : p ∈ c) :
    (lookupC c p.1).isSome = true := by
  induction c with
  | nil => simp at h
  | cons kv rest ih =>
    obtain ⟨a, v⟩ := kv
    rcases List.mem_cons.mp h with rfl | hmem
    · simp [lookupC]
    · by_cases ha : a = p.1
      · simp [lookupC, ha]
      · simp [lookupC, ha, ih hmem]

/-! ## Theorems: cache eviction (C3) and capacity (C2) -/

/-- C3: when the miss path of `get_holder_count` inserts a new key into a
cache already at capacity (`max_tokens = 2`), the entry it removes is
exactly one whose `timestamp` (the `fetched_at` time, rewritten by each
refresh — not `first_seen`) is minimal among the resident entries; every
other resident key keeps its binding unchanged, and the new key is inserted
with `request_count = 1`, `first_seen = now`. -/
theorem evicts_minimal_fetched_at (c : Cache) (m : String) (cnt now : Nat)
    (hnd : (keysC c).Nodup) (hm : containsC c m = false) (hcap : 2 ≤ c.length) :
    ∃ k ek, lookupC c k = some ek ∧
      (∀ p ∈ c, ek.timestamp ≤ p.2.timestamp) ∧
      lookupC (get_holder_count_store c m cnt now) k = none ∧
      (∀ k', k' ≠ k → k' ≠ m →
        lookupC (get_holder_count_store c m cnt now) k' = lookupC c k') ∧
      lookupC (get_holder_count_store c m cnt now) m = some ⟨cnt, now, m, 1, now⟩ := by
  obtain ⟨kv, rest, rfl⟩ : ∃ kv rest, c = kv :: rest := by
    cases c with
    | nil => simp at hcap
    | cons kv rest => exact ⟨kv, rest, rfl⟩
  have hmem : oldestGo kv rest ∈ kv :: rest := by
    rcases oldestGo_mem kv rest with h | h
    · rw [h]
      exact List.mem_cons_self kv rest
    · exact List.mem_cons_of_mem kv h
  have hmin : ∀ q ∈ kv :: rest, (oldestGo kv rest).2.timestamp ≤ q.2.timestamp := by
    obtain ⟨h1, h2⟩ := oldestGo_min kv rest
    intro q hq
    rcases List.mem_cons.mp hq with rfl | hq
    · exact h1
    · exact h2 q hq
  have hlook : lookupC (kv :: rest) (oldestGo kv rest).1 = some (oldestGo kv rest).2 :=
    lookupC_eq_of_mem_nodup _ _ _ hnd (by rw [Prod.mk.eta]; exact hmem)
  have hpm : (oldestGo kv rest).1 ≠ m := by
    intro hcontra
    rw [containsC, ← hcontra, hlook] at hm
    simp at hm
  have hev : evictIfFull (kv :: rest) m = removeC (kv :: rest) (oldestGo kv rest).1 := by
    rw [evictIfFull, if_pos ⟨hcap, hm⟩]
    rfl
  refine ⟨(oldestGo kv rest).1, (oldestGo kv rest).2, hlook, hmin, ?_, ?_, ?_⟩
  · rw [get_holder_count_store, hev, lookupC_insertC_ne _ _ _ _ hpm,
      lookupC_removeC_self _ _ hnd]
  · intro k' hk'k hk'm
    rw [get_holder_count_store, hev, lookupC_insertC_ne _ _ _ _ hk'm,
      lookupC_removeC_ne _ _ _ hk'k]
  · rw [get_holder_count_store, lookupC_insertC_self]

/-- C3 witness: a capacity-2 cache holding keys "A" (fetched at 1) and "B"
(fetched at 5); inserting "C" evicts exactly "A". -/
theorem evicts_minimal_fetched_at_witness :
    ∃ k ek,
      lookupC ([("A", ⟨10, 1, "A", 3, 1⟩), ("B", ⟨20, 5, "B", 4, 2⟩)] : Cache) k = some ek ∧
      (∀ p ∈ ([("A", ⟨10, 1, "A", 3, 1⟩), ("B", ⟨20, 5, "B", 4, 2⟩)] : Cache),
        ek.timestamp ≤ p.2.timestamp) ∧
      lookupC (get_holder_count_store
        [("A", ⟨10, 1, "A", 3, 1⟩), ("B", ⟨20, 5, "B", 4, 2⟩)] "C" 7 9) k = none ∧
      (∀ k', k' ≠ k → k' ≠ "C" →
        lookupC (get_holder_count_store
          [("A", ⟨10, 1, "A", 3, 1⟩), ("B", ⟨20, 5, "B", 4, 2⟩)] "C" 7 9) k' =
        lookupC ([("A", ⟨10, 1, "A", 3, 1⟩), ("B", ⟨20, 5, "B", 4, 2⟩)] : Cache) k') ∧
      lookupC (get_holder_count_store
        [("A", ⟨10, 1, "A", 3, 1⟩), ("B", ⟨20, 5, "B", 4, 2⟩)] "C" 7 9) "C" =
        some ⟨7, 9, "C", 1, 9⟩ :=
  evicts_minimal_fetched_at _ "C" 7 9 (by decide) (by decide) (by decide)

/-- C2 counterexample: an explicit reachable interleaving in which the cache
table holds 3 entries after a completed mutating operation.  Keys "A", "B"
are inserted; the refresher snapshots `["A", "B"]`; a foreground miss for
"C" evicts "A"; the refresher then refreshes the already-evicted "A" and
re-inserts it (with `request_count = 0`) without any capacity check, so the
table ends with "B", "C" and "A" resident — size 3 > N = 2. -/
theorem cache_capacity_violation_reachable :
    ∃ s : SysState, Reachable s ∧ s.cache.length = 3 := by
  refine ⟨⟨refresh_update
      (get_holder_count_store
        (get_holder_count_store (get_holder_count_store [] "A" 1 1) "B" 1 2) "C" 1 3)
      "A" 5 4, ["B"]⟩, ?_, by decide⟩
  exact Relation.ReflTransGen.tail
    (Relation.ReflTransGen.tail
      (Relation.ReflTransGen.tail
        (Relation.ReflTransGen.tail
          (Relation.ReflTransGen.tail Relation.ReflTransGen.refl
            (SysStep.miss ⟨[], []⟩ "A" 1 1 (by decide)))
          (SysStep.miss ⟨get_holder_count_store [] "A" 1 1, []⟩ "B" 1 2 (by decide)))
        (SysStep.snapshot
          ⟨get_holder_count_store (get_holder_count_store [] "A" 1 1) "B" 1 2, []⟩
          (by decide)))
      (SysStep.miss
        ⟨get_holder_count_store (get_holder_count_store [] "A" 1 1) "B" 1 2,
          keysC (get_holder_count_store (get_holder_count_store [] "A" 1 1) "B" 1 2)⟩
        "C" 1 3 (by decide)))
    (SysStep.refreshOk
      ⟨get_holder_count_store
        (get_holder_count_store (get_holder_count_store [] "A" 1 1) "B" 1 2) "C" 1 3,
        keysC (get_holder_count_store (get_holder_count_store [] "A" 1 1) "B" 1 2)⟩
      "A" ["B"] 5 4 (by decide))

/-- C2 (amended): each foreground mutating operation preserves the capacity
bound — a cache hit keeps the size unchanged, and the miss-path store keeps
the size at most `N = 2` whenever it was at most 2 — and a background
refresh of a key that is still resident also preserves the size; but a
background refresh of a key that is no longer resident (evicted after the
refresher's snapshot) re-inserts it and grows the table by one, which is how
reachable interleavings exceed the bound. -/
theorem cache_capacity_local_bounds (c : Cache) (m : String) (e : HolderCacheEntry)
    (cnt now : Nat) (h2 : c.length ≤ 2) :
    (lookupC c m = some e → (cache_hit c m e).2.length = c.length) ∧
    (get_holder_count_store c m cnt now).length ≤ 2 ∧
    (containsC c m = true → (refresh_update c m cnt now).length = c.length) ∧
    (containsC c m = false → (refresh_update c m cnt now).length = c.length + 1) := by
  refine ⟨?_, ?_, ?_, ?_⟩
  · intro he
    exact insertC_length_of_contains c m _ (by rw [containsC, he]; rfl)
  · rw [get_holder_count_store]
    by_cases hcond : max_tokens ≤ c.length ∧ containsC c m = false
    · obtain ⟨kv, rest, rfl⟩ : ∃ kv rest, c = kv :: rest := by
        cases c with
        | nil => exact absurd hcond.1 (by simp [max_tokens])
        | cons kv rest => exact ⟨kv, rest, rfl⟩
      have hev : evictIfFull (kv :: rest) m = removeC (kv :: rest) (oldestGo kv rest).1 := by
        rw [evictIfFull, if_pos hcond]
        rfl
      have hcont : containsC (kv :: rest) (oldestGo kv rest).1 = true := by
        have hmem : oldestGo kv rest ∈ kv :: rest := by
          rcases oldestGo_mem kv rest with h | h
          · rw [h]
            exact List.mem_cons_self kv rest
          · exact List.mem_cons_of_mem kv h
        exact lookupC_isSome_of_mem _ _ hmem
      have hrem : (removeC (kv :: rest) (oldestGo kv rest).1).length + 1 =
          (kv :: rest).length := removeC_length_of_contains _ _ hcont
      have hnotm : containsC (removeC (kv :: rest) (oldestGo kv rest).1) m = false := by
        rw [containsC_false_iff]
        exact lookupC_removeC_of_none _ _ _ ((containsC_false_iff _ _).mp hcond.2)
      rw [hev, insertC_length_of_not_contains _ _ _ hnotm]
      omega
    · rw [evictIfFull, if_neg hcond]
      by_cases hcm : containsC c m = true
      · rw [insertC_length_of_contains _ _ _ hcm]
        exact h2
      · have hcm' : containsC c m = false := by
          cases h : containsC c m
          · rfl
          · exact absurd h hcm
        have hlen : ¬ max_tokens ≤ c.length := fun hle => hcond ⟨hle, hcm'⟩
        rw [insertC_length_of_not_contains _ _ _ hcm']
        have : c.length < max_tokens := not_le.mp hlen
        simp [max_tokens] at this
        omega
  · intro hc
    obtain ⟨e0, he0⟩ := Option.isSome_iff_exists.mp (by rw [containsC] at hc; exact hc)
    rw [refresh_update, he0]
    exact insertC_length_of_contains c m _ hc
  · intro hc
    rw [refresh_update, (containsC_false_iff c m).mp hc]
    exact insertC_length_of_not_contains c m _ hc

/-- C2 witness (amended claim): a full 2-entry cache; the miss-path store
for a new key "C" keeps the size at 2, while a background refresh of the
non-resident key "Z" grows it to 3. -/
theorem cache_capacity_local_bounds_witness :
    (get_holder_count_store
      [("A", ⟨10, 1, "A", 3, 1⟩), ("B", ⟨20, 5, "B", 4, 2⟩)] "C" 7 9).length ≤ 2 ∧
    (refresh_update
      [("A", ⟨10, 1, "A", 3, 1⟩), ("B", ⟨20, 5, "B", 4, 2⟩)] "Z" 7 9).length =
      ([("A", ⟨10, 1, "A", 3, 1⟩), ("B", ⟨20, 5, "B", 4, 2⟩)] : Cache).length + 1 :=
  ⟨(cache_capacity_local_bounds
      [("A", ⟨10, 1, "A", 3, 1⟩), ("B", ⟨20, 5, "B", 4, 2⟩)] "C" ⟨0, 0, "C", 0, 0⟩ 7 9
      (by decide)).2.1,
    (cache_capacity_local_bounds
      [("A", ⟨10, 1, "A", 3, 1⟩), ("B", ⟨20, 5, "B", 4, 2⟩)] "Z" ⟨0, 0, "Z", 0, 0⟩ 7 9
      (by decide)).2.2.2 (by decide)⟩

/-! ## Theorems: hit / refresh frame effects (C9) and the cached flag (C10) -/

/-- C9: a cache hit increments the entry's `request_count` by exactly 1 and
leaves `count`, `timestamp` (`fetched_at`) and `first_seen` unchanged, both
in the returned clone and in the table, leaving all other keys untouched; a
successful background refresh of a resident key replaces `count` and
`timestamp` but preserves `request_count` and `first_seen`, leaving other
keys untouched; and the refresher never increments `request_count`: the
entry it writes carries either the resident entry's old `request_count` or
0. -/
theorem hit_refresh_frame_spec (c : Cache) (m : String) (e : HolderCacheEntry)
    (cnt now : Nat) (he : lookupC c m = some e) :
    (cache_hit c m e).1.request_count = e.request_count + 1 ∧
    (cache_hit c m e).1.count = e.count ∧
    (cache_hit c m e).1.timestamp = e.timestamp ∧
    (cache_hit c m e).1.first_seen = e.first_seen ∧
    lookupC (cache_hit c m e).2 m = some (cache_hit c m e).1 ∧
    (∀ k, k ≠ m → lookupC (cache_hit c m e).2 k = lookupC c k) ∧
    lookupC (refresh_update c m cnt now) m =
      some ⟨cnt, now, m, e.request_count, e.first_seen⟩ ∧
    (∀ k, k ≠ m → lookupC (refresh_update c m cnt now) k = lookupC c k) ∧
    (∀ (c' : Cache) (m' : String) (cnt' now' : Nat) (e' : HolderCacheEntry),
      lookupC (refresh_update c' m' cnt' now') m' = some e' →
      e'.request_count = 0 ∨
        ∃ e0, lookupC c' m' = some e0 ∧ e'.request_count = e0.request_count) := by
  refine ⟨rfl, rfl, rfl, rfl, ?_, ?_, ?_, ?_, ?_⟩
  · exact lookupC_insertC_self c m _
  · intro k hk
    exact lookupC_insertC_ne c m _ k hk
  · rw [refresh_update, he]
    exact lookupC_insertC_self c m _
  · intro k hk
    rw [refresh_update, he]
    exact lookupC_insertC_ne c m _ k hk
  · intro c' m' cnt' now' e' he'
    cases hl : lookupC c' m' with
    | some e0 =>
      rw [refresh_update, hl, lookupC_insertC_self] at he'
      injection he' with h
      subst h
      exact Or.inr ⟨e0, rfl, rfl⟩
    | none =>
      rw [refresh_update, hl, lookupC_insertC_self] at he'
      injection he' with h
      subst h
      exact Or.inl rfl

/-- C9 witness: a one-entry cache; the hit bumps `request_count` from 7 to
8, and the refresh writes count 6 / timestamp 20 while preserving
`request_count` 7 and `first_seen` 3. -/
theorem hit_refresh_frame_spec_witness :
    (cache_hit [("A", ⟨5, 10, "A", 7, 3⟩)] "A" ⟨5, 10, "A", 7, 3⟩).1.request_count =
      (⟨5, 10, "A", 7, 3⟩ : HolderCacheEntry).request_count + 1 ∧
    lookupC (refresh_update [("A", ⟨5, 10, "A", 7, 3⟩)] "A" 6 20) "A" =
      some ⟨6, 20, "A", 7, 3⟩ :=
  ⟨(hit_refresh_frame_spec [("A", ⟨5, 10, "A", 7, 3⟩)] "A" ⟨5, 10, "A", 7, 3⟩ 6 20
      (by decide)).1,
    (hit_refresh_frame_spec [("A", ⟨5, 10, "A", 7, 3⟩)] "A" ⟨5, 10, "A", 7, 3⟩ 6 20
      (by decide)).2.2.2.2.2.2.1⟩

/-- C10: a successful `GET /holders/{mint}` response carries
`cached = (request_count of the returned entry > 1)`.  Consequently the
request that first inserts a key responds `cached = false`
(`request_count = 1`), and a hit on an entry the background refresher
re-inserted with `request_count = 0` also responds `cached = false`
(the hit bumps it to 1) even though the value was served from the cache. -/
theorem cached_flag_spec (c : Cache) (m : String) (fr : Option Nat) (cnt now : Nat) :
    (∀ entry c2, get_holder_count c m fr now = (.ok entry, c2) →
      (get_holders c m fr now).1 =
        .ok ⟨m, entry.count, entry.timestamp, decide (1 < entry.request_count)⟩) ∧
    (lookupC c m = none →
      (get_holders c m (some cnt) now).1 = .ok ⟨m, cnt, now, false⟩) ∧
    (∀ e, lookupC c m = some e → e.request_count = 0 →
      (get_holders c m fr now).1 = .ok ⟨m, e.count, e.timestamp, false⟩) ∧
    (∀ (c0 : Cache) (cnt0 t0 : Nat), lookupC c0 m = none →
      lookupC (refresh_update c0 m cnt0 t0) m = some ⟨cnt0, t0, m, 0, t0⟩ ∧
      (get_holders (refresh_update c0 m cnt0 t0) m fr now).1 =
        .ok ⟨m, cnt0, t0, false⟩) := by
  refine ⟨?_, ?_, ?_, ?_⟩
  · intro entry c2 hgc
    rw [get_holders, hgc]
  · intro hnone
    rw [get_holders, get_holder_count.eq_def, hnone]
    rfl
  · intro e hsome hrc
    rw [get_holders, get_holder_count.eq_def, hsome]
    simp [cache_hit, hrc]
  · intro c0 cnt0 t0 h0
    have hl : lookupC (refresh_update c0 m cnt0 t0) m = some ⟨cnt0, t0, m, 0, t0⟩ := by
      rw [refresh_update, h0]
      exact lookupC_insertC_self c0 m _
    refine ⟨hl, ?_⟩
    rw [get_holders, get_holder_count.eq_def, hl]
    simp [cache_hit]

/-- C10 witness: the first (inserting) request for key "A" on an empty cache
responds `cached = false`. -/
theorem cached_flag_spec_witness :
    lookupC ([] : Cache) "A" = none ∧
    (get_holders ([] : Cache) "A" (some 7) 5).1 = .ok ⟨"A", 7, 5, false⟩ :=
  ⟨rfl, (cached_flag_spec [] "A" (some 7) 7 5).2.1 rfl⟩

end SolBot
